import Mathlib

/-!
Verification development for the currency-conversion calculator
(`streamlit_app.py`).  The arithmetic core is embedded shallowly:

* Python floats are idealised as exact rationals.  To keep every
  definition kernel-executable we use `PRat`, an unnormalised
  numerator/denominator pair of integers (normalising with `Nat.gcd`
  would block kernel reduction).  Semantic equality of two `PRat`s is
  `qEq` (cross multiplication).  The IEEE special values that the
  program can actually produce (`inf`, `-inf`, `nan`, from the
  division-by-zero fallback in `safe_eval` and subsequent float
  arithmetic) are carried by `PyVal`.
* `ast.parse(expr, mode='eval')` is modelled by a fuelled
  recursive-descent parser `pyP` over the fragment of Python
  expressions reachable from the calculator (numbers, `+ - * / ( )`,
  unary sign, identifiers and the keyword constants `True`/`False`/
  `None`).  Numeric literals follow Python 3: an integer literal is a
  digit run without a leading zero before a nonzero digit (so `"05"`
  is a `SyntaxError`, PEP 3127, while `"0"` and `"00"` parse), and a
  float literal is `digits '.' digits?` or `'.' digits` with leading
  zeros allowed (`"5."`, `".5"`, `"05.5"` all parse).  Python
  additionally accepts whitespace between tokens, exponent-notation
  literals (`1e-5`) and complex literals (`1j`); no claim below feeds
  such a string to the evaluator, so those forms are outside the
  model (the parser rejects them).
* The int/float distinction of Python numbers is dropped: values are
  rationals.  The only observable difference in this program is that
  `str(-val)` in `toggle_sign` renders an int result without a
  trailing `.0`; no claim below depends on that rendering.
-/

/-- Unnormalised rational: `num / den`.  All constructions in the model
keep `den` positive; the type itself does not enforce it. -/
structure PRat where
  num : Int
  den : Int
deriving DecidableEq

/-- Embed an integer. -/
def PRat.ofInt (n : Int) : PRat := ⟨n, 1⟩

/-- Semantic value of a `PRat` as a Mathlib rational (for readable
statements only; proofs compute on the pair representation). -/
def PRat.toRat (a : PRat) : ℚ := (a.num : ℚ) / (a.den : ℚ)

/-- Cross-multiplication equality: `a` and `b` denote the same rational
(provided the denominators are nonzero). -/
def qEq (a b : PRat) : Prop := a.num * b.den = b.num * a.den

instance (a b : PRat) : Decidable (qEq a b) := by
  unfold qEq; infer_instance

def qadd (a b : PRat) : PRat := ⟨a.num * b.den + b.num * a.den, a.den * b.den⟩

def qsub (a b : PRat) : PRat := ⟨a.num * b.den - b.num * a.den, a.den * b.den⟩

def qmul (a b : PRat) : PRat := ⟨a.num * b.num, a.den * b.den⟩

def qneg (a : PRat) : PRat := ⟨-a.num, a.den⟩

/-- Division `a / b`; the sign of `b.num` is moved into the numerator so
that a positive denominator stays positive.  Callers guard
`b.num ≠ 0` (Python raises `ZeroDivisionError` there). -/
def qdiv (a b : PRat) : PRat :=
  if b.num < 0 then ⟨-(a.num * b.den), a.den * -b.num⟩ else ⟨a.num * b.den, a.den * b.num⟩

/-- A Python float value as this program can observe it: a finite
rational or one of the special values. -/
inductive PyVal where
  | fin (q : PRat)
  | inf
  | ninf
  | nan
deriving DecidableEq

/-- Python truth of `v == 0` for a float `v`. -/
def pyIsZero : PyVal → Bool
  | .fin q => q.num = 0
  | _ => false

/-- Sign of a finite value: `1`, `-1` or `0`. -/
def qSign (q : PRat) : Int := (q.num * q.den).sign

/-- Float addition with the special values. -/
def pAdd : PyVal → PyVal → PyVal
  | .nan, _ => .nan
  | _, .nan => .nan
  | .fin a, .fin b => .fin (qadd a b)
  | .inf, .fin _ => .inf
  | .fin _, .inf => .inf
  | .inf, .inf => .inf
  | .ninf, .fin _ => .ninf
  | .fin _, .ninf => .ninf
  | .ninf, .ninf => .ninf
  | .inf, .ninf => .nan
  | .ninf, .inf => .nan

/-- Float negation. -/
def pNeg : PyVal → PyVal
  | .fin q => .fin (qneg q)
  | .inf => .ninf
  | .ninf => .inf
  | .nan => .nan

/-- Float subtraction. -/
def pSub (a b : PyVal) : PyVal := pAdd a (pNeg b)

/-- Float multiplication with the special values (`inf * 0 = nan`). -/
def pMul : PyVal → PyVal → PyVal
  | .nan, _ => .nan
  | _, .nan => .nan
  | .fin a, .fin b => .fin (qmul a b)
  | .inf, .fin b => if qSign b = 1 then .inf else if qSign b = -1 then .ninf else .nan
  | .fin a, .inf => if qSign a = 1 then .inf else if qSign a = -1 then .ninf else .nan
  | .ninf, .fin b => if qSign b = 1 then .ninf else if qSign b = -1 then .inf else .nan
  | .fin a, .ninf => if qSign a = 1 then .ninf else if qSign a = -1 then .inf else .nan
  | .inf, .inf => .inf
  | .ninf, .ninf => .inf
  | .inf, .ninf => .ninf
  | .ninf, .inf => .ninf

/-- Float division.  `none` models an uncaught `ZeroDivisionError`
(dividing by exact float zero always raises in Python).  Dividing a
finite value by an infinity collapses to plain `0` (the sign of the
resulting signed zero is not tracked). -/
def pDiv : PyVal → PyVal → Option PyVal
  | .fin a, .fin b => if b.num = 0 then none else some (.fin (qdiv a b))
  | .inf, .fin b =>
    if b.num = 0 then none else if qSign b = 1 then some .inf else some .ninf
  | .ninf, .fin b =>
    if b.num = 0 then none else if qSign b = 1 then some .ninf else some .inf
  | .nan, .fin b => if b.num = 0 then none else some .nan
  | .fin _, .inf => some (.fin ⟨0, 1⟩)
  | .fin _, .ninf => some (.fin ⟨0, 1⟩)
  | _, .nan => some .nan
  | .nan, _ => some .nan
  | .inf, _ => some .nan
  | .ninf, _ => some .nan

/-- Keystroke/character sequence of the expression buffer. -/
abbrev Chars := List Char

/-!
AST of `ast.parse(expr, mode='eval')`, restricted to the node kinds the
allow-list walk `_eval` distinguishes.  `ast.Num` only occurs as the
deprecated alias check inside `_eval`; modern parses produce
`Constant` nodes, so the model has no separate `Num` constructor.
-/

/-- Value carried by an `ast.Constant` node.  Booleans are kept apart
because `isinstance(True, (int, float))` holds in Python (`bool` is a
subclass of `int`), which matters for the allow-list walk.  Complex
constants are omitted from the model. -/
inductive ConstK where
  | cNum (q : PRat)
  | cBool (b : Bool)
  | cStr
  | cNone
deriving DecidableEq

/-- Unary operator node kinds. -/
inductive UOpK where
  | uAdd
  | uSub
  | uNot
  | uInvert
deriving DecidableEq

/-- Binary operator node kinds. -/
inductive BOpK where
  | add
  | sub
  | mult
  | div
  | pow
  | mod
  | floorDiv
  | bitXor
deriving DecidableEq

/-- Python expression AST nodes (the kinds `_eval` can meet). -/
inductive PyNode where
  | expression (body : PyNode)
  | constant (k : ConstK)
  | unaryOp (op : UOpK) (operand : PyNode)
  | binOp (op : BOpK) (left right : PyNode)
  | boolOp (left right : PyNode)
  | compare (left right : PyNode)
  | name (id : String)
  | call (func : PyNode)
  | ifExp (c t e : PyNode)
deriving DecidableEq

/-- Error outcomes of the walk: `ZeroDivisionError` or one of the
`ValueError`s raised for unsupported constants/nodes. -/
inductive EvErr where
  | zeroDiv
  | unsup
deriving DecidableEq

/-- The inner `_eval` of `safe_eval`: walk the tree, allow-listing
numeric constants (booleans count as numeric, value 0/1), unary
`+`/`-`, binary `+ - * /` and the `Expression` wrapper; every other
node raises `ValueError` (modelled `.unsup`) without evaluating its
children.  `x / y` with `y == 0` raises `ZeroDivisionError`
(`.zeroDiv`), which propagates. -/
def evalNode : PyNode → Except EvErr PRat
  | .expression b => evalNode b
  | .constant (.cNum q) => .ok q
  | .constant (.cBool b) => .ok ⟨if b then 1 else 0, 1⟩
  | .constant .cStr => .error .unsup
  | .constant .cNone => .error .unsup
  | .unaryOp .uAdd e => evalNode e
  | .unaryOp .uSub e => (evalNode e).map qneg
  | .unaryOp _ _ => .error .unsup
  | .binOp .add l r => do pure (qadd (← evalNode l) (← evalNode r))
  | .binOp .sub l r => do pure (qsub (← evalNode l) (← evalNode r))
  | .binOp .mult l r => do pure (qmul (← evalNode l) (← evalNode r))
  | .binOp .div l r => do
    let a ← evalNode l
    let b ← evalNode r
    if b.num = 0 then .error .zeroDiv else pure (qdiv a b)
  | .binOp _ _ _ => .error .unsup
  | .boolOp _ _ => .error .unsup
  | .compare _ _ => .error .unsup
  | .name _ => .error .unsup
  | .call _ => .error .unsup
  | .ifExp _ _ _ => .error .unsup

/-- Node kinds the allow-list is meant to admit (amended to include the
boolean constants that `bool <: int` lets through). -/
def allowedTree : PyNode → Bool
  | .expression b => allowedTree b
  | .constant (.cNum _) => true
  | .constant (.cBool _) => true
  | .constant _ => false
  | .unaryOp .uAdd e => allowedTree e
  | .unaryOp .uSub e => allowedTree e
  | .unaryOp _ _ => false
  | .binOp .add l r => allowedTree l && allowedTree r
  | .binOp .sub l r => allowedTree l && allowedTree r
  | .binOp .mult l r => allowedTree l && allowedTree r
  | .binOp .div l r => allowedTree l && allowedTree r
  | .binOp _ _ _ => false
  | _ => false

/-!
Lexing: digit runs, numbers and identifiers.
-/

/-- Split off the longest leading run of decimal digits. -/
def lexDigits : Chars → Chars × Chars
  | [] => ([], [])
  | c :: cs =>
    if c.isDigit then
      let (ds, rest) := lexDigits cs
      (c :: ds, rest)
    else ([], c :: cs)

/-- Numeric value of a digit character. -/
def digVal (c : Char) : ℕ := c.toNat - 48

/-- Decimal value of a digit run. -/
def foldDigits (ds : Chars) : ℕ := ds.foldl (fun v c => v * 10 + digVal c) 0

/-- Python 3 forbids leading zeros in decimal integer literals
(PEP 3127): a digit run is a bad integer literal when it starts with
`'0'` yet contains a nonzero digit (`"05"`), while `"0"`, `"00"` and
runs starting with a nonzero digit are fine. -/
def badIntLit : Chars → Bool
  | [] => false
  | c :: rest => c == '0' && rest.any (fun d => d != '0')

/-- Lex a Python 3 numeric literal: `digits` (an integer literal,
a `SyntaxError` when it has a leading zero before a nonzero digit),
or a float literal `digits '.' digits?` / `'.' digits` (leading zeros
allowed there).  Exponent forms (`1e-5`) are outside the modelled
fragment. -/
def lexNumber (cs : Chars) : Option (PRat × Chars) :=
  let (ds, rest) := lexDigits cs
  match rest with
  | [] =>
    if ds = [] then none
    else if badIntLit ds then none
    else some (⟨(foldDigits ds : Int), 1⟩, [])
  | c :: r2 =>
    if c = '.' then
      let (fs, r3) := lexDigits r2
      if ds = [] ∧ fs = [] then none
      else
        some (⟨(foldDigits ds : Int) * 10 ^ fs.length + (foldDigits fs : Int),
               (10 : Int) ^ fs.length⟩, r3)
    else if ds = [] then none
    else if badIntLit ds then none
    else some (⟨(foldDigits ds : Int), 1⟩, c :: r2)

/-- Number rule of the spec grammar taken verbatim (spec section 4.1):
`number := digits ('.' digits)?`, with no restriction on leading
zeros. -/
def lexNumberSpec (cs : Chars) : Option (PRat × Chars) :=
  let (ds, rest) := lexDigits cs
  if ds = [] then none
  else
    match rest with
    | [] => some (⟨(foldDigits ds : Int), 1⟩, [])
    | c :: r2 =>
      if c = '.' then
        let (fs, r3) := lexDigits r2
        if fs = [] then none
        else
          some (⟨(foldDigits ds : Int) * 10 ^ fs.length + (foldDigits fs : Int),
                 (10 : Int) ^ fs.length⟩, r3)
      else some (⟨(foldDigits ds : Int), 1⟩, c :: r2)

/-- Number rule of the amended C2 grammar: exactly `lexNumberSpec`
except that an integer literal with a leading zero before a nonzero
digit is rejected, as `ast.parse` rejects it. -/
def lexNumberV (cs : Chars) : Option (PRat × Chars) :=
  let (ds, rest) := lexDigits cs
  if ds = [] then none
  else
    match rest with
    | [] => if badIntLit ds then none else some (⟨(foldDigits ds : Int), 1⟩, [])
    | c :: r2 =>
      if c = '.' then
        let (fs, r3) := lexDigits r2
        if fs = [] then none
        else
          some (⟨(foldDigits ds : Int) * 10 ^ fs.length + (foldDigits fs : Int),
                 (10 : Int) ^ fs.length⟩, r3)
      else if badIntLit ds then none
      else some (⟨(foldDigits ds : Int), 1⟩, c :: r2)

/-- Split off the longest leading identifier (letters, digits, `_`). -/
def lexIdent : Chars → Chars × Chars
  | [] => ([], [])
  | c :: cs =>
    if c.isAlpha || c = '_' || c.isDigit then
      let (ds, rest) := lexIdent cs
      (c :: ds, rest)
    else ([], c :: cs)

/-- Grammar levels of the fuelled recursive-descent model of
`ast.parse` (`exprL`/`termL` are the left-associative operator loops,
carrying the tree built so far). -/
inductive PLv where
  | expr
  | exprL (acc : PyNode)
  | term
  | termL (acc : PyNode)
  | factor
  | atom

/-- Fuelled parser producing the Python AST of the fragment:
`expr := term (('+'|'-') term)*`, `term := factor (('*'|'/') factor)*`,
`factor := ('+'|'-') factor | atom`,
`atom := number | ident | '(' expr ')'`, with the keyword constants
`True`/`False`/`None` recognised inside the identifier case; a number
token starts with a digit or with `'.'` followed by a digit. -/
def pyP : Nat → PLv → Chars → Option (PyNode × Chars)
  | 0, _, _ => none
  | f + 1, lv, cs =>
    match lv with
    | .expr =>
      match pyP f .term cs with
      | some (n, r) => pyP f (.exprL n) r
      | none => none
    | .exprL acc =>
      match cs with
      | [] => some (acc, [])
      | c :: r =>
        if c = '+' then
          match pyP f .term r with
          | some (n, r2) => pyP f (.exprL (.binOp .add acc n)) r2
          | none => none
        else if c = '-' then
          match pyP f .term r with
          | some (n, r2) => pyP f (.exprL (.binOp .sub acc n)) r2
          | none => none
        else some (acc, c :: r)
    | .term =>
      match pyP f .factor cs with
      | some (n, r) => pyP f (.termL n) r
      | none => none
    | .termL acc =>
      match cs with
      | [] => some (acc, [])
      | c :: r =>
        if c = '*' then
          match pyP f .factor r with
          | some (n, r2) => pyP f (.termL (.binOp .mult acc n)) r2
          | none => none
        else if c = '/' then
          match pyP f .factor r with
          | some (n, r2) => pyP f (.termL (.binOp .div acc n)) r2
          | none => none
        else some (acc, c :: r)
    | .factor =>
      match cs with
      | [] => pyP f .atom []
      | c :: r =>
        if c = '+' then
          match pyP f .factor r with
          | some (n, r2) => some (.unaryOp .uAdd n, r2)
          | none => none
        else if c = '-' then
          match pyP f .factor r with
          | some (n, r2) => some (.unaryOp .uSub n, r2)
          | none => none
        else pyP f .atom (c :: r)
    | .atom =>
      match cs with
      | [] => none
      | c :: r =>
        if c = '(' then
          match pyP f .expr r with
          | some (n, r2) =>
            match r2 with
            | [] => none
            | c2 :: r3 => if c2 = ')' then some (n, r3) else none
          | none => none
        else if c.isDigit ∨ c = '.' then
          match lexNumber (c :: r) with
          | some (q, rest) => some (.constant (.cNum q), rest)
          | none => none
        else if c.isAlpha || c = '_' then
          let (ident, rest) := lexIdent (c :: r)
          let idStr := String.mk ident
          if idStr = "True" then some (.constant (.cBool true), rest)
          else if idStr = "False" then some (.constant (.cBool false), rest)
          else if idStr = "None" then some (.constant .cNone, rest)
          else some (.name idStr, rest)
        else none

/-- Fuel bound used at top level (amply enough: each grammar level
burns one unit and at most four levels stack per input character). -/
def fuelFor (cs : Chars) : Nat := 4 * cs.length + 4

/-- Model of `ast.parse(expr, mode='eval')` for the fragment: parse a
complete expression and wrap it in the `Expression` node; any leftover
input is a `SyntaxError` (`none`). -/
def pyParse (cs : Chars) : Option PyNode :=
  match pyP (fuelFor cs) .expr cs with
  | some (n, []) => some (.expression n)
  | _ => none

/-- The full `safe_eval` on a character buffer: empty input returns 0;
a parse failure or an unsupported node is the `ValueError` outcome
(`.error ()`, the spec's `ParseError`); a `ZeroDivisionError` anywhere
is caught at top level and returned as `float('inf')`. -/
def safeEvalL (cs : Chars) : Except Unit PyVal :=
  if cs = [] then .ok (.fin ⟨0, 1⟩)
  else
    match pyParse cs with
    | none => .error ()
    | some n =>
      match evalNode n with
      | .ok q => .ok (.fin q)
      | .error .zeroDiv => .ok .inf
      | .error .unsup => .error ()

/-- Model of `safe_eval` on a Python string. -/
def safe_eval (s : String) : Except Unit PyVal := safeEvalL s.toList

/-!
Specification-side evaluator.  Following the grammar of spec §4.1
verbatim (standard precedence, left-associative binary operators,
number := digits ('.' digits)? via `lexNumberSpec`, at most one unary
sign per factor), this parser computes the value of a valid
arithmetic string directly, with `none` both for strings outside the
grammar and for strings whose standard value is undefined (division
by zero).  `factorNS` is the part of a factor after its optional
sign; it burns one fuel unit so that fuel consumption lines up with
`pyP` for the refinement proof.  `specPV` is the same grammar with
the number rule restricted to Python-valid integer literals
(`lexNumberV`): the domain of the amended C2 claim.
-/

/-- Grammar levels of the spec-side evaluator. -/
inductive SLv where
  | expr
  | exprL (acc : PRat)
  | term
  | termL (acc : PRat)
  | factor
  | factorNS
  | atom

/-- Fuelled direct evaluator for the spec grammar. -/
def specP : Nat → SLv → Chars → Option (PRat × Chars)
  | 0, _, _ => none
  | f + 1, lv, cs =>
    match lv with
    | .expr =>
      match specP f .term cs with
      | some (v, r) => specP f (.exprL v) r
      | none => none
    | .exprL acc =>
      match cs with
      | [] => some (acc, [])
      | c :: r =>
        if c = '+' then
          match specP f .term r with
          | some (v, r2) => specP f (.exprL (qadd acc v)) r2
          | none => none
        else if c = '-' then
          match specP f .term r with
          | some (v, r2) => specP f (.exprL (qsub acc v)) r2
          | none => none
        else some (acc, c :: r)
    | .term =>
      match specP f .factor cs with
      | some (v, r) => specP f (.termL v) r
      | none => none
    | .termL acc =>
      match cs with
      | [] => some (acc, [])
      | c :: r =>
        if c = '*' then
          match specP f .factor r with
          | some (v, r2) => specP f (.termL (qmul acc v)) r2
          | none => none
        else if c = '/' then
          match specP f .factor r with
          | some (v, r2) =>
            if v.num = 0 then none else specP f (.termL (qdiv acc v)) r2
          | none => none
        else some (acc, c :: r)
    | .factor =>
      match cs with
      | [] => specP f .atom []
      | c :: r =>
        if c = '+' then specP f .factorNS r
        else if c = '-' then
          match specP f .factorNS r with
          | some (v, r2) => some (qneg v, r2)
          | none => none
        else specP f .atom (c :: r)
    | .factorNS => specP f .atom cs
    | .atom =>
      match cs with
      | [] => none
      | c :: r =>
        if c = '(' then
          match specP f .expr r with
          | some (v, r2) =>
            match r2 with
            | [] => none
            | c2 :: r3 => if c2 = ')' then some (v, r3) else none
          | none => none
        else if c.isDigit then
          match lexNumberSpec (c :: r) with
          | some (q, rest) => some (q, rest)
          | none => none
        else none

/-- Standard infix value of a whole string under the spec grammar
(`none`: not a valid arithmetic string, or value undefined). -/
def specEval (cs : Chars) : Option PRat :=
  match specP (fuelFor cs) .expr cs with
  | some (v, []) => some v
  | _ => none

/-- Amended C2 grammar evaluator: identical to `specP` except that the
number rule is `lexNumberV` (spec grammar restricted to integer
literals without leading zeros). -/
def specPV : Nat → SLv → Chars → Option (PRat × Chars)
  | 0, _, _ => none
  | f + 1, lv, cs =>
    match lv with
    | .expr =>
      match specPV f .term cs with
      | some (v, r) => specPV f (.exprL v) r
      | none => none
    | .exprL acc =>
      match cs with
      | [] => some (acc, [])
      | c :: r =>
        if c = '+' then
          match specPV f .term r with
          | some (v, r2) => specPV f (.exprL (qadd acc v)) r2
          | none => none
        else if c = '-' then
          match specPV f .term r with
          | some (v, r2) => specPV f (.exprL (qsub acc v)) r2
          | none => none
        else some (acc, c :: r)
    | .term =>
      match specPV f .factor cs with
      | some (v, r) => specPV f (.termL v) r
      | none => none
    | .termL acc =>
      match cs with
      | [] => some (acc, [])
      | c :: r =>
        if c = '*' then
          match specPV f .factor r with
          | some (v, r2) => specPV f (.termL (qmul acc v)) r2
          | none => none
        else if c = '/' then
          match specPV f .factor r with
          | some (v, r2) =>
            if v.num = 0 then none else specPV f (.termL (qdiv acc v)) r2
          | none => none
        else some (acc, c :: r)
    | .factor =>
      match cs with
      | [] => specPV f .atom []
      | c :: r =>
        if c = '+' then specPV f .factorNS r
        else if c = '-' then
          match specPV f .factorNS r with
          | some (v, r2) => some (qneg v, r2)
          | none => none
        else specPV f .atom (c :: r)
    | .factorNS => specPV f .atom cs
    | .atom =>
      match cs with
      | [] => none
      | c :: r =>
        if c = '(' then
          match specPV f .expr r with
          | some (v, r2) =>
            match r2 with
            | [] => none
            | c2 :: r3 => if c2 = ')' then some (v, r3) else none
          | none => none
        else if c.isDigit then
          match lexNumberV (c :: r) with
          | some (q, rest) => some (q, rest)
          | none => none
        else none

/-- Standard infix value of a whole string under the amended C2
grammar (spec grammar whose integer literals carry no leading
zeros). -/
def specEvalV (cs : Chars) : Option PRat :=
  match specPV (fuelFor cs) .expr cs with
  | some (v, []) => some v
  | _ => none

/-!
Rendering of `str(float(v))`.
-/

/-- The decimal digit character for `r < 10`. -/
def digitChar10 (r : ℕ) : Char :=
  if r = 0 then '0' else if r = 1 then '1' else if r = 2 then '2'
  else if r = 3 then '3' else if r = 4 then '4' else if r = 5 then '5'
  else if r = 6 then '6' else if r = 7 then '7' else if r = 8 then '8' else '9'

/-- Fuelled most-significant-first digit rendering. -/
def natToDigitsAux : Nat → Nat → Chars → Chars
  | 0, _, acc => acc
  | f + 1, n, acc =>
    if n < 10 then digitChar10 n :: acc
    else natToDigitsAux f (n / 10) (digitChar10 (n % 10) :: acc)

/-- Decimal digits of `n`, most significant first (`0` renders `"0"`). -/
def natToDigits (n : Nat) : Chars := natToDigitsAux (n + 1) n []

/-- Left-pad with `'0'` to length `k`. -/
def padZeros (k : Nat) (ds : Chars) : Chars := List.replicate (k - ds.length) '0' ++ ds

/-- Strip trailing `'0'` characters (Python `rstrip('0')`). -/
def rstripZeros (l : Chars) : Chars := (l.reverse.dropWhile (fun c => c = '0')).reverse

/-- Strip trailing `'.'` characters (Python `rstrip('.')`). -/
def rstripDot (l : Chars) : Chars := (l.reverse.dropWhile (fun c => c = '.')).reverse

/-- Plain-decimal `str(float)` form of a finite value, when it has one:
Python renders a float without an exponent exactly when it is zero or
its magnitude lies in `[1e-4, 1e16)`, and in the exact-rational
idealisation the digits below are the float's shortest repr exactly
when the value terminates within 16 fractional digits (`den ∣ 10^16`);
outside that domain the result is `none` and `sciOfQ` takes over.
Integral values render with a trailing `".0"`, as `str(float)` does. -/
def decimalOfQ (q : PRat) : Option Chars :=
  let n : Int := if q.den < 0 then -q.num else q.num
  let d : Int := if q.den < 0 then -q.den else q.den
  if n = 0 then some ['0', '.', '0']
  else
    let a : Int := n.natAbs
    if d ∣ n * 10 ^ 16 ∧ d ≤ 10 ^ 4 * a ∧ a < 10 ^ 16 * d then
      let m : Nat := ((a * 10 ^ 16) / d).toNat
      let ip := m / 10 ^ 16
      let fp := m % 10 ^ 16
      let fr := rstripZeros (padZeros 16 (natToDigits fp))
      let fr2 := if fr = [] then ['0'] else fr
      some ((if n < 0 then ['-'] else []) ++ natToDigits ip ++ '.' :: fr2)
    else none

/-- Scientific-notation `str(float)` form for the values `decimalOfQ`
declines (magnitude below `1e-4` or at least `1e16`, or a
non-terminating idealised rational, where the 17 leading digits stand
in for the shortest float repr; truncation stands in for its final
rounding).  Shapes like `1e-05`, `1.5e+16` with the exponent padded to
two digits, as Python prints them. -/
def sciOfQ (q : PRat) : Chars :=
  let n : Int := if q.den < 0 then -q.num else q.num
  let d : Int := if q.den < 0 then -q.den else q.den
  if n = 0 then ['0', '.', '0']
  else
    let a : Int := n.natAbs
    let dn := (natToDigits a.toNat).length
    let dd := (natToDigits d.toNat).length
    let e0 : Int := (dn : Int) - (dd : Int)
    let ok0 := if 0 ≤ e0 then 10 ^ e0.toNat * d ≤ a else d ≤ a * 10 ^ (-e0).toNat
    let e : Int := if ok0 then e0 else e0 - 1
    let k : Int := 16 - e
    let m : Nat := (if 0 ≤ k then (a * 10 ^ k.toNat) / d else a / (d * 10 ^ (-k).toNat)).toNat
    let ds := natToDigits m
    let mant :=
      match ds with
      | [] => ['0']
      | c :: rest =>
        let fr := rstripZeros rest
        if fr = [] then [c] else c :: '.' :: fr
    let esign := if e < 0 then '-' else '+'
    let eabs := (if e < 0 then -e else e).toNat
    (if n < 0 then ['-'] else []) ++ mant ++ 'e' :: esign :: padZeros 2 (natToDigits eabs)

/-- Model of `str(float(v))`. -/
def pyStr (v : PyVal) : Chars :=
  match v with
  | .inf => ['i', 'n', 'f']
  | .ninf => ['-', 'i', 'n', 'f']
  | .nan => ['n', 'a', 'n']
  | .fin q =>
    match decimalOfQ q with
    | some s => s
    | none => sciOfQ q

/-!
Calculator state and controller functions.
-/

/-- Rate table: association list from currency code to "TWD per one
unit" factor (`dict` in the source; key order is irrelevant here). -/
abbrev RateTable := List (String × PRat)

/-- Dictionary lookup. -/
def rlookup : RateTable → String → Option PRat
  | [], _ => none
  | (k, v) :: rest, code => if k = code then some v else rlookup rest code

/-- Python `rates.get(code, 1.0)`. -/
def ratesGet (rates : RateTable) (code : String) : PRat :=
  (rlookup rates code).getD ⟨1, 1⟩

/-- The mutable session state the controller functions touch. -/
structure CalcState where
  expr : Chars
  last : PyVal
  memory : PyVal
  selected : String
deriving DecidableEq

/-- Python whitespace (the characters `.strip()` removes that can at
all reach the buffer). -/
def isPySpace (c : Char) : Bool := c = ' ' || c = '\t' || c = '\n' || c = '\r'

/-- Python `s.strip()`. -/
def trimChars (cs : Chars) : Chars :=
  ((cs.dropWhile isPySpace).reverse.dropWhile isPySpace).reverse

/-- The sanitisation `re.sub(r'[^0-9+\-*/().]', '', s)` of
`do_calculate`: keep only digits and `+ - * / ( ) .`. -/
def sanitizeChars (cs : Chars) : Chars :=
  cs.filter (fun c =>
    c.isDigit || c = '+' || c = '-' || c = '*' || c = '/' || c = '(' || c = ')' || c = '.')

/-- Model of `press(ch)`: append one keystroke. -/
def press (st : CalcState) (ch : Char) : CalcState := { st with expr := st.expr ++ [ch] }

/-- Model of `backspace()`: drop the last character (no-op on empty). -/
def backspace (st : CalcState) : CalcState := { st with expr := st.expr.dropLast }

/-- Model of `clear_all()`. -/
def clear_all (st : CalcState) : CalcState := { st with expr := [], last := .fin ⟨0, 1⟩ }

/-- Model of `do_calculate()`: strip, then on empty set last to 0 (leaving the
buffer), else sanitise, evaluate, and on success store the value and
reset the buffer to `str(float(val))`; on any error leave the state
unchanged (the UI only shows a message). -/
def do_calculate (st : CalcState) : CalcState :=
  let s := trimChars st.expr
  if s = [] then { st with last := .fin ⟨0, 1⟩ }
  else
    match safeEvalL (sanitizeChars s) with
    | .ok v => { st with last := v, expr := pyStr v }
    | .error _ => st

/-- Model of `toggle_sign()`: empty buffer becomes `"-"`; else the raw buffer is
evaluated, and on success with a nonzero value the buffer becomes
`str(-val)` and last becomes `-val` (an exact zero leaves the state
alone); on failure a `'-'` is appended at the end (the bare `except`
swallows the evaluator error, so nothing crashes).  `str(-val)` is
rendered float-style here; Python prints pure-int results without
`".0"`, a difference no claim depends on. -/
def toggle_sign (st : CalcState) : CalcState :=
  if st.expr = [] then { st with expr := ['-'] }
  else
    match safeEvalL st.expr with
    | .ok v =>
      if pyIsZero v then st
      else { st with expr := pyStr (pNeg v), last := pNeg v }
    | .error _ => { st with expr := st.expr ++ ['-'] }

/-- Model of `handle_currency_switch(code, prev_code)`: when the last result is
nonzero and both codes are in the table, convert through TWD and reset
buffer and result; the selected code is then updated unconditionally.
`none` is the uncaught `ZeroDivisionError` for a zero rate (never the
case for tables the adapter builds). -/
def handle_currency_switch (code prevCode : String) (rates : RateTable)
    (st : CalcState) : Option CalcState :=
  let step1 : Option CalcState :=
    if !pyIsZero st.last && (rlookup rates prevCode).isSome
        && (rlookup rates code).isSome then
      let valInTwd := pMul st.last (.fin (ratesGet rates prevCode))
      match pDiv valInTwd (.fin (ratesGet rates code)) with
      | some valTarget => some { st with last := valTarget, expr := pyStr valTarget }
      | none => none
    else some st
  match step1 with
  | some st1 => some { st1 with selected := code }
  | none => none

/-- Model of `memory_add()`: first runs `do_calculate`, then adds
`last * rates.get(selected, 1.0)` to the memory (silent default factor
1.0 when the code is missing). -/
def memory_add (rates : RateTable) (st : CalcState) : CalcState :=
  let st1 := do_calculate st
  let valTwd := pMul st1.last (.fin (ratesGet rates st1.selected))
  { st1 with memory := pAdd st1.memory valTwd }

/-- Model of `memory_subtract()`: like `memory_add` but subtracting. -/
def memory_subtract (rates : RateTable) (st : CalcState) : CalcState :=
  let st1 := do_calculate st
  let valTwd := pMul st1.last (.fin (ratesGet rates st1.selected))
  { st1 with memory := pSub st1.memory valTwd }

/-- Model of `memory_recall()`: the value `memory / rates.get(selected, 1.0)` becomes the
buffer (as `str`) and the last result; `none` is the uncaught
`ZeroDivisionError` for a zero rate. -/
def memory_recall (rates : RateTable) (st : CalcState) : Option CalcState :=
  match pDiv st.memory (.fin (ratesGet rates st.selected)) with
  | some recalled => some { st with expr := pyStr recalled, last := recalled }
  | none => none

/-- Model of `memory_clear()`. -/
def memory_clear (st : CalcState) : CalcState := { st with memory := .fin ⟨0, 1⟩ }

/-!
The number formatter `format_number`.
-/

/-- Input to `format_number`: a float value, or anything `float(n)`
rejects with an exception. -/
inductive FInput where
  | val (v : PyVal)
  | notCoercible
deriving DecidableEq

/-- Python `"%.8f"`-style fixed rendering (the `.8f` format): special
values print their names, finite values print sign, integer digits,
`'.'` and exactly 8 fractional digits.  Rounding is to nearest with
ties away from zero rounded up (the binary float's round-half-even is
not observable at the inputs the claims use). -/
def fixed8 : PyVal → Chars
  | .inf => ['i', 'n', 'f']
  | .ninf => ['-', 'i', 'n', 'f']
  | .nan => ['n', 'a', 'n']
  | .fin q =>
    let n : Int := if q.den < 0 then -q.num else q.num
    let d : Int := if q.den < 0 then -q.den else q.den
    let m8 : Int := (2 * n * 10 ^ 8 + d) / (2 * d)
    let a := m8.natAbs
    (if m8 < 0 then ['-'] else []) ++
      natToDigits (a / 10 ^ 8) ++ '.' :: padZeros 8 (natToDigits (a % 10 ^ 8))

/-- Split at the first `'.'` (the rendered strings here contain at most
one, so this agrees with Python's `split('.')` and the later
`parts[0] + '.' + parts[1]` reassembly). -/
def splitDot : Chars → Chars × Option Chars
  | [] => ([], none)
  | c :: rest =>
    if c = '.' then ([], some rest)
    else
      let (a, b) := splitDot rest
      (c :: a, b)

/-- Python `int(s)` on the strings reaching it here: an optional `'-'`
followed by a nonempty digit run; anything else raises (`none`). -/
def parseIntOpt (cs : Chars) : Option Int :=
  match cs with
  | [] => none
  | c :: rest =>
    if c = '-' then
      if rest ≠ [] ∧ rest.all Char.isDigit then some (-(foldDigits rest : Int)) else none
    else
      if (c :: rest).all Char.isDigit then some ((foldDigits (c :: rest) : Int)) else none

/-- Group digits in threes from the right with `','`
(operates on the reversed digit list). -/
def group3rev : Chars → Chars
  | a :: b :: c :: d :: rest => a :: b :: c :: ',' :: group3rev (d :: rest)
  | l => l

/-- Python `"{:,}".format(n)` for an integer (thousands separators). -/
def groupInt (n : Int) : Chars :=
  (if n < 0 then ['-'] else []) ++ (group3rev (natToDigits n.natAbs).reverse).reverse

/-- Core of `format_number` on a float: fixed-8 render, strip trailing
zeros then a trailing dot, split at the dot, thousands-group the
integer part when `int()` accepts it (keep it verbatim otherwise, as
happens for `inf`/`nan`; an empty part becomes `"0"`), and reattach
the fraction. -/
def formatVal (v : PyVal) : Chars :=
  let s2 := rstripDot (rstripZeros (fixed8 v))
  let (ip, fp) := splitDot s2
  let ip2 :=
    if ip = [] then ['0']
    else
      match parseIntOpt ip with
      | some n => groupInt n
      | none => ip
  ip2 ++ (match fp with
    | some f => '.' :: f
    | none => [])

/-- Model of `format_number(n)`: non-coercible input yields `"0"`; a float is
rendered by `formatVal`. -/
def format_number (x : FInput) : String :=
  match x with
  | .val v => String.mk (formatVal v)
  | .notCoercible => "0"

/-- Semantic equality of two float values: finite values compared as
rationals (cross multiplication), special values structurally. -/
def pvEq : PyVal → PyVal → Prop
  | .fin a, .fin b => qEq a b
  | a, b => a = b

/-- Decidable equality of `Except` results (not derived in core). -/
instance exceptDecEq {e a : Type} [DecidableEq e] [DecidableEq a] :
    DecidableEq (Except e a) := fun x y =>
  match x, y with
  | .ok v, .ok w =>
    if h : v = w then .isTrue (by rw [h]) else .isFalse (fun hh => h (by injection hh))
  | .error v, .error w =>
    if h : v = w then .isTrue (by rw [h]) else .isFalse (fun hh => h (by injection hh))
  | .ok _, .error _ => .isFalse (fun hh => Except.noConfusion hh)
  | .error _, .ok _ => .isFalse (fun hh => Except.noConfusion hh)

/-!
Helper lemmas: digit characters, digit lists and rendering.
-/

theorem digitChar10_isDigit (r : ℕ) : (digitChar10 r).isDigit = true := by
  unfold digitChar10
  repeat' split
  all_goals decide

theorem digVal_digitChar10 (r : ℕ) (h : r < 10) : digVal (digitChar10 r) = r := by
  interval_cases r <;> decide

theorem foldDigits_append_singleton (A : Chars) (c : Char) :
    foldDigits (A ++ [c]) = foldDigits A * 10 + digVal c := by
  simp [foldDigits, List.foldl_append]

theorem natToDigitsAux_acc (f : ℕ) : ∀ (n : ℕ) (acc : Chars),
    natToDigitsAux f n acc = natToDigitsAux f n [] ++ acc := by
  induction f with
  | zero => intro n acc; simp [natToDigitsAux]
  | succ f ih =>
    intro n acc
    unfold natToDigitsAux
    split
    · simp
    · rw [ih (n / 10) (digitChar10 (n % 10) :: acc), ih (n / 10) [digitChar10 (n % 10)]]
      simp

theorem natToDigitsAux_spec (f : ℕ) : ∀ (n : ℕ), 0 < f → n < 10 ^ f →
    foldDigits (natToDigitsAux f n []) = n ∧ natToDigitsAux f n [] ≠ [] ∧
    (∀ c ∈ natToDigitsAux f n [], c.isDigit = true) ∧
    (natToDigitsAux f n []).length ≤ f := by
  induction f with
  | zero => intro n h; omega
  | succ f ih =>
    intro n _ hn
    unfold natToDigitsAux
    split
    · rename_i h10
      refine ⟨?_, by simp, ?_, by simp⟩
      · simp [foldDigits]
        exact digVal_digitChar10 n h10
      · intro c hc
        simp at hc
        subst hc
        exact digitChar10_isDigit n
    · rename_i h10
      push_neg at h10
      have hf : 0 < f := by
        by_contra hf0
        have : f = 0 := by omega
        subst this
        simp at hn
        omega
      have hdiv : n / 10 < 10 ^ f := by
        rw [Nat.div_lt_iff_lt_mul (by norm_num)]
        calc n < 10 ^ (f + 1) := hn
        _ = 10 ^ f * 10 := by ring
      obtain ⟨ih1, ih2, ih3, ih4⟩ := ih (n / 10) hf hdiv
      rw [natToDigitsAux_acc]
      refine ⟨?_, by simp, ?_, ?_⟩
      · rw [foldDigits_append_singleton, ih1, digVal_digitChar10 _ (Nat.mod_lt n (by norm_num))]
        omega
      · intro c hc
        rcases List.mem_append.mp hc with h | h
        · exact ih3 c h
        · simp at h
          subst h
          exact digitChar10_isDigit _
      · rw [List.length_append]
        simp
        omega

theorem natToDigitsAux_fuelInv (f : ℕ) : ∀ (g n : ℕ) (acc : Chars), 0 < f → 0 < g →
    n < 10 ^ f → n < 10 ^ g → natToDigitsAux f n acc = natToDigitsAux g n acc := by
  induction f with
  | zero => intro g n acc h; omega
  | succ f ih =>
    intro g n acc _ hg hnf hng
    rcases g with _ | g
    · omega
    unfold natToDigitsAux
    split
    · rfl
    · rename_i h10
      push_neg at h10
      have hf : 0 < f := by
        by_contra hf0
        have : f = 0 := by omega
        subst this
        simp at hnf
        omega
      have hg' : 0 < g := by
        by_contra hg0
        have : g = 0 := by omega
        subst this
        simp at hng
        omega
      have hdf : n / 10 < 10 ^ f := by
        rw [Nat.div_lt_iff_lt_mul (by norm_num)]
        calc n < 10 ^ (f + 1) := hnf
        _ = 10 ^ f * 10 := by ring
      have hdg : n / 10 < 10 ^ g := by
        rw [Nat.div_lt_iff_lt_mul (by norm_num)]
        calc n < 10 ^ (g + 1) := hng
        _ = 10 ^ g * 10 := by ring
      exact ih g (n / 10) _ hf hg' hdf hdg

theorem nat_lt_ten_pow_succ (n : ℕ) : n < 10 ^ (n + 1) :=
  lt_of_lt_of_le (Nat.lt_pow_self (by norm_num) n)
    (Nat.pow_le_pow_right (by norm_num) (Nat.le_succ n))

theorem natToDigits_ne_nil (n : ℕ) : natToDigits n ≠ [] :=
  (natToDigitsAux_spec (n + 1) n (Nat.succ_pos n) (nat_lt_ten_pow_succ n)).2.1

theorem natToDigits_isDigit (n : ℕ) : ∀ c ∈ natToDigits n, c.isDigit = true :=
  (natToDigitsAux_spec (n + 1) n (Nat.succ_pos n) (nat_lt_ten_pow_succ n)).2.2.1

theorem natToDigits_length_le (n k : ℕ) (hk : 0 < k) (h : n < 10 ^ k) :
    (natToDigits n).length ≤ k := by
  unfold natToDigits
  rw [natToDigitsAux_fuelInv (n + 1) k n [] (Nat.succ_pos n) hk (nat_lt_ten_pow_succ n) h]
  exact (natToDigitsAux_spec k n hk h).2.2.2

theorem padZeros_length (k : ℕ) (ds : Chars) (h : ds.length ≤ k) :
    (padZeros k ds).length = k := by
  unfold padZeros
  rw [List.length_append, List.length_replicate]
  omega

theorem padZeros_isDigit (k : ℕ) (ds : Chars) (h : ∀ c ∈ ds, c.isDigit = true) :
    ∀ c ∈ padZeros k ds, c.isDigit = true := by
  intro c hc
  unfold padZeros at hc
  rcases List.mem_append.mp hc with h' | h'
  · rw [List.eq_of_mem_replicate h']
    decide
  · exact h c h'

theorem rstripZeros_sub (l : Chars) : ∀ c ∈ rstripZeros l, c ∈ l := by
  intro c hc
  unfold rstripZeros at hc
  have := List.mem_reverse.mp hc
  exact List.mem_reverse.mp ((List.dropWhile_sublist _).subset this)

theorem rstripZeros_length_le (l : Chars) : (rstripZeros l).length ≤ l.length := by
  unfold rstripZeros
  rw [List.length_reverse]
  calc (l.reverse.dropWhile _).length ≤ l.reverse.length := (List.dropWhile_sublist _).length_le
  _ = l.length := List.length_reverse l

theorem dropWhile_append_cons (p : Char → Bool) (A B : Chars) (b : Char) (hb : p b = false) :
    List.dropWhile p (A ++ b :: B) = A.dropWhile p ++ b :: B := by
  induction A with
  | nil => simp [List.dropWhile_cons, hb]
  | cons a A ih =>
    by_cases ha : p a
    · simp [List.dropWhile_cons, ha, ih]
    · simp [List.dropWhile_cons, ha]

theorem rstripZeros_append_dot (X F : Chars) :
    rstripZeros (X ++ '.' :: F) = X ++ '.' :: rstripZeros F := by
  unfold rstripZeros
  rw [List.reverse_append, List.reverse_cons, List.append_assoc, List.singleton_append]
  rw [dropWhile_append_cons _ _ _ _ (by decide)]
  rw [List.reverse_append, List.reverse_cons, List.reverse_reverse]
  simp

theorem dropWhile_cons_neg (p : Char → Bool) (c : Char) (l : Chars) (h : p c = false) :
    List.dropWhile p (c :: l) = c :: l := by
  simp [List.dropWhile_cons, h]

theorem rstripDot_of_last_not_dot (X : Chars) (c : Char) (hc : c ≠ '.') :
    rstripDot (X ++ [c]) = X ++ [c] := by
  unfold rstripDot
  rw [List.reverse_append, List.reverse_singleton, List.singleton_append]
  rw [dropWhile_cons_neg _ _ _ (by simpa using hc)]
  simp

theorem splitDot_no_dot (l : Chars) (h : ∀ c ∈ l, c ≠ '.') : splitDot l = (l, none) := by
  induction l with
  | nil => rfl
  | cons c cs ih =>
    unfold splitDot
    rw [if_neg (h c (by simp))]
    rw [ih (fun x hx => h x (by simp [hx]))]

theorem splitDot_append_dot (X F : Chars) (h : ∀ c ∈ X, c ≠ '.') :
    splitDot (X ++ '.' :: F) = (X, some F) := by
  induction X with
  | nil => simp [splitDot]
  | cons c cs ih =>
    rw [List.cons_append]
    unfold splitDot
    rw [if_neg (h c (by simp))]
    rw [ih (fun x hx => h x (by simp [hx]))]

/-!
Lexer and parser lemmas for rendered decimal numerals.
-/

theorem isDigit_ne_plus (c : Char) (h : c.isDigit = true) : ¬(c = '+') := by
  rintro rfl
  exact absurd h (by decide)

theorem isDigit_ne_minus (c : Char) (h : c.isDigit = true) : ¬(c = '-') := by
  rintro rfl
  exact absurd h (by decide)

theorem evalNode_add (l r : PyNode) (a b : PRat)
    (hl : evalNode l = .ok a) (hr : evalNode r = .ok b) :
    evalNode (.binOp .add l r) = .ok (qadd a b) := by
  simp only [evalNode]
  rw [hl, hr]
  rfl

theorem evalNode_sub (l r : PyNode) (a b : PRat)
    (hl : evalNode l = .ok a) (hr : evalNode r = .ok b) :
    evalNode (.binOp .sub l r) = .ok (qsub a b) := by
  simp only [evalNode]
  rw [hl, hr]
  rfl

theorem evalNode_mult (l r : PyNode) (a b : PRat)
    (hl : evalNode l = .ok a) (hr : evalNode r = .ok b) :
    evalNode (.binOp .mult l r) = .ok (qmul a b) := by
  simp only [evalNode]
  rw [hl, hr]
  rfl

theorem evalNode_div (l r : PyNode) (a b : PRat)
    (hl : evalNode l = .ok a) (hr : evalNode r = .ok b) (hb : ¬(b.num = 0)) :
    evalNode (.binOp .div l r) = .ok (qdiv a b) := by
  simp only [evalNode]
  rw [hl, hr]
  show (if b.num = 0 then Except.error EvErr.zeroDiv else pure (qdiv a b)) = _
  rw [if_neg hb]
  rfl

theorem evalNode_usub (e : PyNode) (a : PRat) (he : evalNode e = .ok a) :
    evalNode (.unaryOp .uSub e) = .ok (qneg a) := by
  show (evalNode e).map qneg = _
  rw [he]
  rfl

theorem lexNumberV_lexNumber (cs : Chars) (p : PRat × Chars)
    (h : lexNumberV cs = some p) : lexNumber cs = some p := by
  unfold lexNumberV at h
  unfold lexNumber
  rcases hld : lexDigits cs with ⟨ds, rest⟩
  rw [hld] at h
  dsimp only at h ⊢
  by_cases hds : ds = []
  · rw [if_pos hds] at h
    exact Option.noConfusion h
  · rw [if_neg hds] at h
    cases rest with
    | nil =>
      dsimp only at h ⊢
      by_cases hbad : badIntLit ds = true
      · rw [if_pos hbad] at h
        exact Option.noConfusion h
      · rw [if_neg hbad] at h
        rw [if_neg hds, if_neg hbad]
        exact h
    | cons c r2 =>
      dsimp only at h ⊢
      by_cases hdot : c = '.'
      · rw [if_pos hdot] at h
        rw [if_pos hdot]
        rcases hld2 : lexDigits r2 with ⟨fs, r3⟩
        rw [hld2] at h
        dsimp only at h ⊢
        by_cases hfs : fs = []
        · rw [if_pos hfs] at h
          exact Option.noConfusion h
        · rw [if_neg hfs] at h
          rw [if_neg (show ¬(ds = [] ∧ fs = []) from fun hand => hds hand.1)]
          exact h
      · rw [if_neg hdot] at h
        rw [if_neg hdot, if_neg hds]
        by_cases hbad : badIntLit ds = true
        · rw [if_pos hbad] at h
          exact Option.noConfusion h
        · rw [if_neg hbad] at h
          rw [if_neg hbad]
          exact h

theorem specPV_atom_shape (f : ℕ) (cs : Chars) (v : PRat) (r : Chars)
    (h : specPV f .atom cs = some (v, r)) :
    ∃ c r', cs = c :: r' ∧ (c = '(' ∨ c.isDigit = true) := by
  cases f with
  | zero => simp [specPV] at h
  | succ f =>
    cases cs with
    | nil => rw [specPV.eq_def] at h; simp at h
    | cons c cr =>
      rw [specPV.eq_def] at h
      dsimp only at h
      refine ⟨c, cr, rfl, ?_⟩
      by_cases hpar : c = '('
      · exact Or.inl hpar
      · rw [if_neg hpar] at h
        by_cases hdig : c.isDigit
        · exact Or.inr hdig
        · rw [if_neg hdig] at h
          simp at h

theorem spec_py_lockstep : ∀ f : ℕ,
    (∀ cs v r, specPV f .expr cs = some (v, r) →
      ∃ n, pyP f .expr cs = some (n, r) ∧ evalNode n = .ok v) ∧
    (∀ a na cs v r, evalNode na = .ok a → specPV f (.exprL a) cs = some (v, r) →
      ∃ n, pyP f (.exprL na) cs = some (n, r) ∧ evalNode n = .ok v) ∧
    (∀ cs v r, specPV f .term cs = some (v, r) →
      ∃ n, pyP f .term cs = some (n, r) ∧ evalNode n = .ok v) ∧
    (∀ a na cs v r, evalNode na = .ok a → specPV f (.termL a) cs = some (v, r) →
      ∃ n, pyP f (.termL na) cs = some (n, r) ∧ evalNode n = .ok v) ∧
    (∀ cs v r, specPV f .factor cs = some (v, r) →
      ∃ n, pyP f .factor cs = some (n, r) ∧ evalNode n = .ok v) ∧
    (∀ cs v r, specPV f .factorNS cs = some (v, r) →
      ∃ n, pyP f .factor cs = some (n, r) ∧ evalNode n = .ok v) ∧
    (∀ cs v r, specPV f .atom cs = some (v, r) →
      ∃ n, pyP f .atom cs = some (n, r) ∧ evalNode n = .ok v) := by
  intro f
  induction f with
  | zero =>
    refine ⟨?_, ?_, ?_, ?_, ?_, ?_, ?_⟩
    · intro cs v r h; simp [specPV] at h
    · intro a na cs v r _ h; simp [specPV] at h
    · intro cs v r h; simp [specPV] at h
    · intro a na cs v r _ h; simp [specPV] at h
    · intro cs v r h; simp [specPV] at h
    · intro cs v r h; simp [specPV] at h
    · intro cs v r h; simp [specPV] at h
  | succ f ih =>
    obtain ⟨ihE, ihEL, ihT, ihTL, ihF, ihFNS, ihA⟩ := ih
    refine ⟨?_, ?_, ?_, ?_, ?_, ?_, ?_⟩
    · -- expr
      intro cs v r h
      rw [specPV.eq_def] at h
      dsimp only at h
      cases hT : specPV f .term cs with
      | none => rw [hT] at h; simp at h
      | some pr =>
        obtain ⟨v1, r1⟩ := pr
        rw [hT] at h
        dsimp only at h
        obtain ⟨n1, hn1, he1⟩ := ihT cs v1 r1 hT
        obtain ⟨n2, hn2, he2⟩ := ihEL v1 n1 r1 v r he1 h
        refine ⟨n2, ?_, he2⟩
        rw [pyP.eq_def]
        dsimp only
        rw [hn1]
        dsimp only
        exact hn2
    · -- exprL
      intro a na cs v r hena h
      cases cs with
      | nil =>
        rw [specPV.eq_def] at h
        dsimp only at h
        simp only [Option.some.injEq, Prod.mk.injEq] at h
        obtain ⟨rfl, rfl⟩ := h
        refine ⟨na, ?_, hena⟩
        rw [pyP.eq_def]
      | cons c cr =>
        rw [specPV.eq_def] at h
        dsimp only at h
        by_cases hplus : c = '+'
        · subst hplus
          rw [if_pos rfl] at h
          cases hT : specPV f .term cr with
          | none => rw [hT] at h; simp at h
          | some pr =>
            obtain ⟨v1, r1⟩ := pr
            rw [hT] at h
            dsimp only at h
            obtain ⟨n1, hn1, he1⟩ := ihT cr v1 r1 hT
            obtain ⟨n2, hn2, he2⟩ :=
              ihEL (qadd a v1) (.binOp .add na n1) r1 v r (evalNode_add na n1 a v1 hena he1) h
            refine ⟨n2, ?_, he2⟩
            rw [pyP.eq_def]
            dsimp only
            rw [if_pos rfl, hn1]
            dsimp only
            exact hn2
        · by_cases hminus : c = '-'
          · subst hminus
            rw [if_neg hplus, if_pos rfl] at h
            cases hT : specPV f .term cr with
            | none => rw [hT] at h; simp at h
            | some pr =>
              obtain ⟨v1, r1⟩ := pr
              rw [hT] at h
              dsimp only at h
              obtain ⟨n1, hn1, he1⟩ := ihT cr v1 r1 hT
              obtain ⟨n2, hn2, he2⟩ :=
                ihEL (qsub a v1) (.binOp .sub na n1) r1 v r (evalNode_sub na n1 a v1 hena he1) h
              refine ⟨n2, ?_, he2⟩
              rw [pyP.eq_def]
              dsimp only
              rw [if_neg hplus, if_pos rfl, hn1]
              dsimp only
              exact hn2
          · rw [if_neg hplus, if_neg hminus] at h
            simp only [Option.some.injEq, Prod.mk.injEq] at h
            obtain ⟨rfl, rfl⟩ := h
            refine ⟨na, ?_, hena⟩
            rw [pyP.eq_def]
            dsimp only
            rw [if_neg hplus, if_neg hminus]
    · -- term
      intro cs v r h
      rw [specPV.eq_def] at h
      dsimp only at h
      cases hF : specPV f .factor cs with
      | none => rw [hF] at h; simp at h
      | some pr =>
        obtain ⟨v1, r1⟩ := pr
        rw [hF] at h
        dsimp only at h
        obtain ⟨n1, hn1, he1⟩ := ihF cs v1 r1 hF
        obtain ⟨n2, hn2, he2⟩ := ihTL v1 n1 r1 v r he1 h
        refine ⟨n2, ?_, he2⟩
        rw [pyP.eq_def]
        dsimp only
        rw [hn1]
        dsimp only
        exact hn2
    · -- termL
      intro a na cs v r hena h
      cases cs with
      | nil =>
        rw [specPV.eq_def] at h
        dsimp only at h
        simp only [Option.some.injEq, Prod.mk.injEq] at h
        obtain ⟨rfl, rfl⟩ := h
        refine ⟨na, ?_, hena⟩
        rw [pyP.eq_def]
      | cons c cr =>
        rw [specPV.eq_def] at h
        dsimp only at h
        by_cases hmul : c = '*'
        · subst hmul
          rw [if_pos rfl] at h
          cases hF : specPV f .factor cr with
          | none => rw [hF] at h; simp at h
          | some pr =>
            obtain ⟨v1, r1⟩ := pr
            rw [hF] at h
            dsimp only at h
            obtain ⟨n1, hn1, he1⟩ := ihF cr v1 r1 hF
            obtain ⟨n2, hn2, he2⟩ :=
              ihTL (qmul a v1) (.binOp .mult na n1) r1 v r
                (evalNode_mult na n1 a v1 hena he1) h
            refine ⟨n2, ?_, he2⟩
            rw [pyP.eq_def]
            dsimp only
            rw [if_pos rfl, hn1]
            dsimp only
            exact hn2
        · by_cases hdivc : c = '/'
          · subst hdivc
            rw [if_neg hmul, if_pos rfl] at h
            cases hF : specPV f .factor cr with
            | none => rw [hF] at h; simp at h
            | some pr =>
              obtain ⟨v1, r1⟩ := pr
              rw [hF] at h
              dsimp only at h
              by_cases hz : v1.num = 0
              · rw [if_pos hz] at h; simp at h
              · rw [if_neg hz] at h
                obtain ⟨n1, hn1, he1⟩ := ihF cr v1 r1 hF
                obtain ⟨n2, hn2, he2⟩ :=
                  ihTL (qdiv a v1) (.binOp .div na n1) r1 v r
                    (evalNode_div na n1 a v1 hena he1 hz) h
                refine ⟨n2, ?_, he2⟩
                rw [pyP.eq_def]
                dsimp only
                rw [if_neg hmul, if_pos rfl, hn1]
                dsimp only
                exact hn2
          · rw [if_neg hmul, if_neg hdivc] at h
            simp only [Option.some.injEq, Prod.mk.injEq] at h
            obtain ⟨rfl, rfl⟩ := h
            refine ⟨na, ?_, hena⟩
            rw [pyP.eq_def]
            dsimp only
            rw [if_neg hmul, if_neg hdivc]
    · -- factor
      intro cs v r h
      cases cs with
      | nil =>
        rw [specPV.eq_def] at h
        dsimp only at h
        obtain ⟨n1, hn1, he1⟩ := ihA [] v r h
        refine ⟨n1, ?_, he1⟩
        rw [pyP.eq_def]
        dsimp only
        exact hn1
      | cons c cr =>
        rw [specPV.eq_def] at h
        dsimp only at h
        by_cases hplus : c = '+'
        · subst hplus
          rw [if_pos rfl] at h
          obtain ⟨n1, hn1, he1⟩ := ihFNS cr v r h
          refine ⟨.unaryOp .uAdd n1, ?_, he1⟩
          rw [pyP.eq_def]
          dsimp only
          rw [if_pos rfl, hn1]
        · by_cases hminus : c = '-'
          · subst hminus
            rw [if_neg hplus, if_pos rfl] at h
            cases hNS : specPV f .factorNS cr with
            | none => rw [hNS] at h; simp at h
            | some pr =>
              obtain ⟨v1, r1⟩ := pr
              rw [hNS] at h
              dsimp only at h
              simp only [Option.some.injEq, Prod.mk.injEq] at h
              obtain ⟨rfl, rfl⟩ := h
              obtain ⟨n1, hn1, he1⟩ := ihFNS cr v1 r1 hNS
              refine ⟨.unaryOp .uSub n1, ?_, evalNode_usub n1 v1 he1⟩
              rw [pyP.eq_def]
              dsimp only
              rw [if_neg hplus, if_pos rfl, hn1]
          · rw [if_neg hplus, if_neg hminus] at h
            obtain ⟨n1, hn1, he1⟩ := ihA (c :: cr) v r h
            refine ⟨n1, ?_, he1⟩
            rw [pyP.eq_def]
            dsimp only
            rw [if_neg hplus, if_neg hminus]
            exact hn1
    · -- factorNS (paired with the code-side factor)
      intro cs v r h
      rw [specPV.eq_def] at h
      dsimp only at h
      obtain ⟨c, r', rfl, hshape⟩ := specPV_atom_shape f cs v r h
      obtain ⟨n1, hn1, he1⟩ := ihA (c :: r') v r h
      refine ⟨n1, ?_, he1⟩
      have hcp : ¬(c = '+') := by
        rcases hshape with rfl | hd
        · decide
        · exact isDigit_ne_plus c hd
      have hcm : ¬(c = '-') := by
        rcases hshape with rfl | hd
        · decide
        · exact isDigit_ne_minus c hd
      rw [pyP.eq_def]
      dsimp only
      rw [if_neg hcp, if_neg hcm]
      exact hn1
    · -- atom
      intro cs v r h
      cases cs with
      | nil => rw [specPV.eq_def] at h; simp at h
      | cons c cr =>
        rw [specPV.eq_def] at h
        dsimp only at h
        by_cases hpar : c = '('
        · subst hpar
          rw [if_pos rfl] at h
          cases hE : specPV f .expr cr with
          | none => rw [hE] at h; simp at h
          | some pr =>
            obtain ⟨v1, r1⟩ := pr
            rw [hE] at h
            dsimp only at h
            cases r1 with
            | nil => simp at h
            | cons c2 r2 =>
              dsimp only at h
              by_cases hrp : c2 = ')'
              · subst hrp
                rw [if_pos rfl] at h
                simp only [Option.some.injEq, Prod.mk.injEq] at h
                obtain ⟨rfl, rfl⟩ := h
                obtain ⟨n1, hn1, he1⟩ := ihE cr v1 (')' :: r2) hE
                refine ⟨n1, ?_, he1⟩
                rw [pyP.eq_def]
                dsimp only
                rw [if_pos rfl, hn1]
                dsimp only
                rw [if_pos rfl]
              · rw [if_neg hrp] at h
                simp at h
        · rw [if_neg hpar] at h
          by_cases hdig : c.isDigit = true
          · rw [if_pos hdig] at h
            cases hN : lexNumberV (c :: cr) with
            | none => rw [hN] at h; simp at h
            | some pr =>
              obtain ⟨q0, rest⟩ := pr
              rw [hN] at h
              dsimp only at h
              simp only [Option.some.injEq, Prod.mk.injEq] at h
              obtain ⟨rfl, rfl⟩ := h
              refine ⟨.constant (.cNum q0), ?_, rfl⟩
              rw [pyP.eq_def]
              dsimp only
              rw [if_neg hpar, if_pos (Or.inl hdig),
                lexNumberV_lexNumber (c :: cr) (q0, rest) hN]
          · rw [if_neg hdig] at h
            simp at h

theorem specPV_expr_nil (f : ℕ) : specPV f .expr [] = none := by
  cases f with
  | zero => rfl
  | succ f =>
    rw [specPV.eq_def]
    dsimp only
    cases f with
    | zero => rfl
    | succ g =>
      have hfac : specPV (g + 1) .factor ([] : Chars) = specPV g .atom [] := by
        rw [specPV.eq_def]
      have hatom : specPV g .atom ([] : Chars) = none := by
        cases g with
        | zero => rfl
        | succ g' => rw [specPV.eq_def]
      have : specPV (g + 1) .term ([] : Chars) = none := by
        rw [specPV.eq_def]
        dsimp only
        cases g with
        | zero => rfl
        | succ g' =>
          rw [show specPV (g' + 1) .factor ([] : Chars) = specPV g' .atom [] from by rw [specPV.eq_def]]
          rw [show specPV g' .atom ([] : Chars) = none from by
            cases g' with
            | zero => rfl
            | succ g'' => rw [specPV.eq_def]]
      rw [this]

theorem specEvalV_safeEval (cs : Chars) (v : PRat) (h : specEvalV cs = some v) :
    safeEvalL cs = .ok (.fin v) := by
  unfold specEvalV at h
  cases hP : specPV (fuelFor cs) .expr cs with
  | none => rw [hP] at h; simp at h
  | some pr =>
    obtain ⟨v1, r1⟩ := pr
    rw [hP] at h
    cases r1 with
    | cons c2 r2 => simp at h
    | nil =>
      dsimp only at h
      obtain rfl : v1 = v := Option.some.inj h
      have hnil : cs ≠ [] := by
        intro h0
        rw [h0] at hP
        rw [specPV_expr_nil] at hP
        exact Option.noConfusion hP
      obtain ⟨n, hn, he⟩ := (spec_py_lockstep (fuelFor cs)).1 cs v1 [] hP
      unfold safeEvalL
      rw [if_neg hnil]
      unfold pyParse
      rw [hn]
      dsimp only
      have he' : evalNode (.expression n) = .ok v1 := he
      rw [he']

/-!
Structure of the number formatter's output on finite values.
-/

theorem rstripDot_concat_dot (Y : Chars) (c : Char) (hc : ¬(c = '.')) :
    rstripDot ((Y ++ [c]) ++ ['.']) = Y ++ [c] := by
  unfold rstripDot
  rw [List.reverse_append, List.reverse_singleton, List.singleton_append]
  rw [List.dropWhile_cons]
  simp only [decide_True, if_true]
  rw [List.reverse_append, List.reverse_singleton, List.singleton_append]
  rw [dropWhile_cons_neg _ _ _ (by simpa using hc)]
  simp

theorem if_sign_shape (b : Prop) [Decidable b] :
    (if b then (['-'] : Chars) else []) = [] ∨ (if b then (['-'] : Chars) else []) = ['-'] := by
  split
  · exact Or.inr rfl
  · exact Or.inl rfl

theorem fixed8_fin_shape (q : PRat) :
    ∃ (sgn ids f8 : Chars),
      fixed8 (.fin q) = sgn ++ ids ++ '.' :: f8 ∧
      (sgn = [] ∨ sgn = ['-']) ∧ ids ≠ [] ∧ (∀ c ∈ ids, c.isDigit = true) ∧
      f8.length = 8 ∧ (∀ c ∈ f8, c.isDigit = true) := by
  unfold fixed8
  refine ⟨_, _, _, rfl, if_sign_shape _, natToDigits_ne_nil _, natToDigits_isDigit _, ?_, ?_⟩
  · exact padZeros_length 8 _ (natToDigits_length_le _ 8 (by norm_num)
      (Nat.mod_lt _ (by norm_num)))
  · exact padZeros_isDigit 8 _ (natToDigits_isDigit _)

theorem formatVal_fin_shape (q : PRat) :
    ∃ (ip fp : Chars), formatVal (.fin q) = ip ++ fp ∧
      (fp = [] ∨ ∃ fr, fp = '.' :: fr ∧ fr.length ≤ 8) := by
  obtain ⟨sgn, ids, f8, hfx, hsgn, hidne, hiddig, hlen8, hf8dig⟩ := fixed8_fin_shape q
  have hnodot : ∀ c ∈ sgn ++ ids, ¬(c = '.') := by
    intro c hc
    rcases List.mem_append.mp hc with h' | h'
    · rcases hsgn with rfl | rfl
      · simp at h'
      · simp at h'
        subst h'
        decide
    · intro h0
      subst h0
      exact absurd (hiddig _ h') (by decide)
  obtain ⟨ids0, cl, hids⟩ : ∃ L b, ids = L ++ [b] := by
    rcases List.eq_nil_or_concat ids with h' | ⟨L, b, h'⟩
    · exact absurd h' hidne
    · exact ⟨L, b, by simpa [List.concat_eq_append] using h'⟩
  have hcl : ¬(cl = '.') := by
    intro h0
    subst h0
    exact absurd (hiddig '.' (by simp [hids])) (by decide)
  unfold formatVal
  dsimp only
  rw [hfx]
  have hassoc : sgn ++ ids ++ '.' :: f8 = (sgn ++ ids) ++ '.' :: f8 := by simp
  rw [hassoc, rstripZeros_append_dot]
  by_cases hF : rstripZeros f8 = []
  · rw [hF]
    have h1 : (sgn ++ ids) ++ '.' :: ([] : Chars) = ((sgn ++ ids0) ++ [cl]) ++ ['.'] := by
      simp [hids]
    rw [h1, rstripDot_concat_dot _ _ hcl]
    have h2 : (sgn ++ ids0) ++ [cl] = sgn ++ ids := by simp [hids]
    rw [h2, splitDot_no_dot _ hnodot]
    dsimp only
    refine ⟨_, [], rfl, Or.inl rfl⟩
  · obtain ⟨F0, cF, hFeq⟩ : ∃ L b, rstripZeros f8 = L ++ [b] := by
      rcases List.eq_nil_or_concat (rstripZeros f8) with h' | ⟨L, b, h'⟩
      · exact absurd h' hF
      · exact ⟨L, b, by simpa [List.concat_eq_append] using h'⟩
    have hcF : ¬(cF = '.') := by
      intro h0
      subst h0
      have hmem : '.' ∈ rstripZeros f8 := by simp [hFeq]
      exact absurd (hf8dig '.' (rstripZeros_sub f8 '.' hmem)) (by decide)
    have h1 : (sgn ++ ids) ++ '.' :: rstripZeros f8 =
        (((sgn ++ ids) ++ '.' :: F0) ++ [cF]) := by
      simp [hFeq]
    rw [h1, rstripDot_of_last_not_dot _ _ hcF]
    have h2 : ((sgn ++ ids) ++ '.' :: F0) ++ [cF] = (sgn ++ ids) ++ '.' :: (F0 ++ [cF]) := by
      simp
    rw [h2, splitDot_append_dot _ _ hnodot]
    dsimp only
    refine ⟨_, '.' :: (F0 ++ [cF]), rfl, Or.inr ⟨F0 ++ [cF], rfl, ?_⟩⟩
    have hle := rstripZeros_length_le f8
    rw [hFeq] at hle
    rw [hlen8] at hle
    simpa using hle

/-!
Claim theorems.
-/

/-- C1 counterexample: the claim says every construct other than numeric
literals, unary sign, the four binary operators and parentheses fails
with a `ParseError`, but the input string `"True"` — a boolean keyword
constant, not a numeric literal — is accepted by `safe_eval` and
evaluates to 1, because `isinstance(True, (int, float))` holds
(`bool` is a subclass of `int`). -/
theorem c1_counterexample :
    safe_eval "True" = .ok (.fin ⟨1, 1⟩) ∧ safe_eval "True" ≠ .error () := by
  constructor
  · decide
  · decide

/-- C1 (amended): the allow-list walk admits numeric and boolean
constants, unary plus/minus, the four arithmetic binary operators and
the `Expression` wrapper, and nothing else: whenever `_eval` returns a
value the tree lies in that allowed fragment (it never falls through
to a default result on a disallowed node), and every disallowed node
kind — names, calls, comparisons, boolean operators, exponentiation,
string or `None` constants — is rejected with the `ValueError`
outcome. -/
theorem c1_allowlist_sound :
    (∀ (node : PyNode) (v : PRat), evalNode node = .ok v → allowedTree node = true) ∧
    (∀ s, evalNode (.name s) = .error .unsup) ∧
    (∀ l r, evalNode (.binOp .pow l r) = .error .unsup) ∧
    (∀ l r, evalNode (.compare l r) = .error .unsup) ∧
    (∀ l r, evalNode (.boolOp l r) = .error .unsup) ∧
    (∀ g, evalNode (.call g) = .error .unsup) ∧
    evalNode (.constant .cStr) = .error .unsup ∧
    evalNode (.constant .cNone) = .error .unsup := by
  refine ⟨?_, fun s => rfl, fun l r => rfl, fun l r => rfl, fun l r => rfl,
    fun g => rfl, rfl, rfl⟩
  intro node
  induction node with
  | expression b ih =>
    intro v h
    exact ih v h
  | constant k =>
    intro v h
    cases k with
    | cNum q => rfl
    | cBool b => rfl
    | cStr => simp [evalNode] at h
    | cNone => simp [evalNode] at h
  | unaryOp op e ih =>
    intro v h
    cases op with
    | uAdd => exact ih v h
    | uSub =>
      cases he : evalNode e with
      | error err =>
        have hh : evalNode (.unaryOp .uSub e) = .error err := by
          simp only [evalNode]
          rw [he]
          rfl
        rw [hh] at h
        exact Except.noConfusion h
      | ok w =>
        show allowedTree e = true
        exact ih w he
    | uNot => simp [evalNode] at h
    | uInvert => simp [evalNode] at h
  | binOp op l r ihl ihr =>
    intro v h
    cases op with
    | add =>
      cases hl : evalNode l with
      | error e =>
        have hh : evalNode (.binOp .add l r) = .error e := by
          simp only [evalNode]
          rw [hl]
          rfl
        rw [hh] at h
        exact Except.noConfusion h
      | ok a =>
        cases hr : evalNode r with
        | error e =>
          have hh : evalNode (.binOp .add l r) = .error e := by
            simp only [evalNode]
            rw [hl, hr]
            rfl
          rw [hh] at h
          exact Except.noConfusion h
        | ok b =>
          show (allowedTree l && allowedTree r) = true
          simp only [Bool.and_eq_true]
          exact ⟨ihl a hl, ihr b hr⟩
    | sub =>
      cases hl : evalNode l with
      | error e =>
        have hh : evalNode (.binOp .sub l r) = .error e := by
          simp only [evalNode]
          rw [hl]
          rfl
        rw [hh] at h
        exact Except.noConfusion h
      | ok a =>
        cases hr : evalNode r with
        | error e =>
          have hh : evalNode (.binOp .sub l r) = .error e := by
            simp only [evalNode]
            rw [hl, hr]
            rfl
          rw [hh] at h
          exact Except.noConfusion h
        | ok b =>
          show (allowedTree l && allowedTree r) = true
          simp only [Bool.and_eq_true]
          exact ⟨ihl a hl, ihr b hr⟩
    | mult =>
      cases hl : evalNode l with
      | error e =>
        have hh : evalNode (.binOp .mult l r) = .error e := by
          simp only [evalNode]
          rw [hl]
          rfl
        rw [hh] at h
        exact Except.noConfusion h
      | ok a =>
        cases hr : evalNode r with
        | error e =>
          have hh : evalNode (.binOp .mult l r) = .error e := by
            simp only [evalNode]
            rw [hl, hr]
            rfl
          rw [hh] at h
          exact Except.noConfusion h
        | ok b =>
          show (allowedTree l && allowedTree r) = true
          simp only [Bool.and_eq_true]
          exact ⟨ihl a hl, ihr b hr⟩
    | div =>
      cases hl : evalNode l with
      | error e =>
        have hh : evalNode (.binOp .div l r) = .error e := by
          simp only [evalNode]
          rw [hl]
          rfl
        rw [hh] at h
        exact Except.noConfusion h
      | ok a =>
        cases hr : evalNode r with
        | error e =>
          have hh : evalNode (.binOp .div l r) = .error e := by
            simp only [evalNode]
            rw [hl, hr]
            rfl
          rw [hh] at h
          exact Except.noConfusion h
        | ok b =>
          show (allowedTree l && allowedTree r) = true
          simp only [Bool.and_eq_true]
          exact ⟨ihl a hl, ihr b hr⟩
    | pow => simp [evalNode] at h
    | mod => simp [evalNode] at h
    | floorDiv => simp [evalNode] at h
    | bitXor => simp [evalNode] at h
  | boolOp l r ihl ihr =>
    intro v h
    simp [evalNode] at h
  | compare l r ihl ihr =>
    intro v h
    simp [evalNode] at h
  | name s =>
    intro v h
    simp [evalNode] at h
  | call g ih =>
    intro v h
    simp [evalNode] at h
  | ifExp a b c iha ihb ihc =>
    intro v h
    simp [evalNode] at h

/-- C1 witness. -/
theorem c1_allowlist_sound_witness :
    evalNode (.expression (.constant (.cNum ⟨7, 2⟩))) = .ok ⟨7, 2⟩ ∧
    allowedTree (.expression (.constant (.cNum ⟨7, 2⟩))) = true :=
  ⟨by decide, c1_allowlist_sound.1 (.expression (.constant (.cNum ⟨7, 2⟩))) ⟨7, 2⟩ (by decide)⟩

/-- C2 counterexample: `"05"` is a valid arithmetic string of the
claim (digits only, balanced parentheses, no dangling operators) with
standard infix value 5, but Python rejects the leading-zero decimal
integer literal with `SyntaxError` (PEP 3127), so `safe_eval` returns
the `ParseError` outcome instead of 5. -/
theorem c2_counterexample :
    specEval "05".toList = some ⟨5, 1⟩ ∧ safe_eval "05" = .error () := by
  decide

/-- C2 (amended): every string of the spec grammar whose integer
literals carry no leading zero before a nonzero digit (the forms
`ast.parse` accepts) is accepted by `safe_eval` with exactly the
standard infix value — standard precedence, left-associative binary
operators; in particular `"2+3*4"` evaluates to 14 and `"(2+3)*4"` to
20. -/
theorem c2_standard_infix :
    (∀ (s : String) (v : PRat), specEvalV s.toList = some v → safe_eval s = .ok (.fin v)) ∧
    safe_eval "2+3*4" = .ok (.fin ⟨14, 1⟩) ∧ PRat.toRat ⟨14, 1⟩ = 14 ∧
    safe_eval "(2+3)*4" = .ok (.fin ⟨20, 1⟩) ∧ PRat.toRat ⟨20, 1⟩ = 20 := by
  refine ⟨fun s v h => specEvalV_safeEval s.toList v h, by decide, ?_, by decide, ?_⟩
  · norm_num [PRat.toRat]
  · norm_num [PRat.toRat]

/-- C2 witness. -/
theorem c2_standard_infix_witness :
    specEvalV "2+3*4".toList = some ⟨14, 1⟩ ∧ safe_eval "2+3*4" = .ok (.fin ⟨14, 1⟩) :=
  ⟨by decide, c2_standard_infix.1 "2+3*4" ⟨14, 1⟩ (by decide)⟩

/-- C4: a well-formed expression whose evaluation raises
`ZeroDivisionError` yields the distinct division-by-zero outcome
`float('inf')` rather than the `ValueError` used for malformed input;
`"1/0"` gives `inf` while the malformed `"1+"` gives the error
outcome, and the two are distinguishable for the caller. -/
theorem c4_divzero_distinct :
    (∀ (s : String) (node : PyNode), pyParse s.toList = some node →
      evalNode node = .error .zeroDiv → safe_eval s = .ok .inf) ∧
    safe_eval "1/0" = .ok .inf ∧ safe_eval "1+" = .error () ∧
    (Except.ok PyVal.inf : Except Unit PyVal) ≠ .error () := by
  refine ⟨?_, by decide, by decide, by decide⟩
  intro s node hp he
  unfold safe_eval safeEvalL
  by_cases hnil : s.toList = []
  · rw [hnil] at hp
    rw [show pyParse ([] : Chars) = none from rfl] at hp
    exact Option.noConfusion hp
  · rw [if_neg hnil, hp]
    dsimp only
    rw [he]

/-- C4 witness. -/
theorem c4_divzero_distinct_witness :
    pyParse "1/0".toList =
      some (.expression (.binOp .div (.constant (.cNum ⟨1, 1⟩)) (.constant (.cNum ⟨0, 1⟩)))) ∧
    safe_eval "1/0" = .ok .inf :=
  ⟨by decide, c4_divzero_distinct.1 "1/0"
    (.expression (.binOp .div (.constant (.cNum ⟨1, 1⟩)) (.constant (.cNum ⟨0, 1⟩))))
    (by decide) (by decide)⟩

theorem handle_switch_cases (code prevCode : String) (rates : RateTable) (st st' : CalcState)
    (h : handle_currency_switch code prevCode rates st = some st') :
    st'.selected = code ∧ st'.memory = st.memory := by
  unfold handle_currency_switch at h
  dsimp only at h
  split at h
  next st1 heq =>
    obtain rfl := Option.some.inj h
    refine ⟨rfl, ?_⟩
    dsimp only
    split at heq
    · cases hd : pDiv (pMul st.last (.fin (ratesGet rates prevCode)))
          (.fin (ratesGet rates code)) with
      | none => rw [hd] at heq; exact Option.noConfusion heq
      | some vt =>
        rw [hd] at heq
        dsimp only at heq
        obtain rfl := Option.some.inj heq
        rfl
    · obtain rfl := Option.some.inj heq
      rfl
  next heq => exact Option.noConfusion h

/-- C3 (code evaluated at the failing input): with a rate table that
does not contain the selected code `"ZZZ"`, `memory_recall` silently
converts with the default factor 1.0 — it returns the stored 100 as
the recalled amount with no error — and `memory_add` of an evaluated
`5` likewise accumulates `5 * 1.0`; no `UnknownCurrency` condition
exists anywhere in the model. -/
theorem c3_silent_default_eval :
    rlookup [("TWD", ⟨1, 1⟩)] "ZZZ" = none ∧
    memory_recall [("TWD", ⟨1, 1⟩)] ⟨[], .fin ⟨0, 1⟩, .fin ⟨100, 1⟩, "ZZZ"⟩ =
      some ⟨pyStr (.fin ⟨100, 1⟩), .fin ⟨100, 1⟩, .fin ⟨100, 1⟩, "ZZZ"⟩ ∧
    (memory_add [("TWD", ⟨1, 1⟩)] ⟨"5".toList, .fin ⟨0, 1⟩, .fin ⟨0, 1⟩, "ZZZ"⟩).memory =
      .fin ⟨5, 1⟩ := by
  decide

/-- C7 counterexample: the claim says the selected code is always a key
of the current rate table (falling back to the base currency when it
is not), but pressing the `"USD"` button while the table only contains
`"TWD"` leaves the selection at `"USD"`, a code absent from the
table — there is no fallback. -/
theorem c7_counterexample :
    handle_currency_switch "USD" "TWD" [("TWD", ⟨1, 1⟩)]
      ⟨[], .fin ⟨0, 1⟩, .fin ⟨0, 1⟩, "TWD"⟩ =
      some ⟨[], .fin ⟨0, 1⟩, .fin ⟨0, 1⟩, "USD"⟩ ∧
    rlookup [("TWD", ⟨1, 1⟩)] "USD" = none := by
  decide

/-- C7 (amended): `handle_currency_switch` updates the selected code to
the pressed code unconditionally — also when that code is absent from
the rate table; no fallback to the base currency ever occurs. -/
theorem c7_selected_unconditional :
    ∀ (code prevCode : String) (rates : RateTable) (st st' : CalcState),
      handle_currency_switch code prevCode rates st = some st' → st'.selected = code :=
  fun code prevCode rates st st' h => (handle_switch_cases code prevCode rates st st' h).1

/-- C7 witness. -/
theorem c7_selected_unconditional_witness :
    handle_currency_switch "JPY" "EUR" [("EUR", ⟨35, 1⟩)]
      ⟨[], .fin ⟨0, 1⟩, .fin ⟨0, 1⟩, "EUR"⟩ =
      some ⟨[], .fin ⟨0, 1⟩, .fin ⟨0, 1⟩, "JPY"⟩ ∧
    (⟨[], .fin ⟨0, 1⟩, .fin ⟨0, 1⟩, "JPY"⟩ : CalcState).selected = "JPY" :=
  ⟨by decide, c7_selected_unconditional "JPY" "EUR" [("EUR", ⟨35, 1⟩)]
    ⟨[], .fin ⟨0, 1⟩, .fin ⟨0, 1⟩, "EUR"⟩ ⟨[], .fin ⟨0, 1⟩, .fin ⟨0, 1⟩, "JPY"⟩ (by decide)⟩

/-- C9 (code evaluated at the failing input): on the buffer `"1+"` the
evaluator fails, and `toggle_sign` appends a `'-'` at the end, giving
`"1+-"` — not the trailing-numeric-token toggle or prepended `'-'`
that the claim (and the source's own comment) describe; the failure is
swallowed, not propagated. -/
theorem c9_toggle_sign_eval :
    safeEvalL "1+".toList = .error () ∧
    toggle_sign ⟨"1+".toList, .fin ⟨3, 1⟩, .fin ⟨0, 1⟩, "TWD"⟩ =
      ⟨"1+-".toList, .fin ⟨3, 1⟩, .fin ⟨0, 1⟩, "TWD"⟩ := by
  decide

/-- C10: when the pending expression fails to evaluate, `do_calculate`
leaves the whole state (last result and buffer) unchanged, yet `M+`
and `M-` still mutate the memory, adding or subtracting the stale
previous result times the selected currency's rate. -/
theorem c10_memory_not_atomic :
    ∀ (rates : RateTable) (st : CalcState),
      trimChars st.expr ≠ [] →
      safeEvalL (sanitizeChars (trimChars st.expr)) = .error () →
      do_calculate st = st ∧
      memory_add rates st =
        { st with memory := pAdd st.memory (pMul st.last (.fin (ratesGet rates st.selected))) } ∧
      memory_subtract rates st =
        { st with memory := pSub st.memory (pMul st.last (.fin (ratesGet rates st.selected))) } := by
  intro rates st hne hev
  have hdc : do_calculate st = st := by
    unfold do_calculate
    dsimp only
    rw [if_neg hne, hev]
  refine ⟨hdc, ?_, ?_⟩
  · unfold memory_add
    rw [hdc]
  · unfold memory_subtract
    rw [hdc]

/-- C10 witness. -/
theorem c10_memory_not_atomic_witness :
    trimChars ("1+".toList) ≠ [] ∧
    safeEvalL (sanitizeChars (trimChars "1+".toList)) = .error () ∧
    memory_add [("USD", ⟨65, 2⟩)] ⟨"1+".toList, .fin ⟨7, 1⟩, .fin ⟨2, 1⟩, "USD"⟩ =
      { (⟨"1+".toList, .fin ⟨7, 1⟩, .fin ⟨2, 1⟩, "USD"⟩ : CalcState) with
        memory := pAdd (.fin ⟨2, 1⟩)
          (pMul (.fin ⟨7, 1⟩) (.fin (ratesGet [("USD", ⟨65, 2⟩)] "USD"))) } :=
  ⟨by decide, by decide,
    (c10_memory_not_atomic [("USD", ⟨65, 2⟩)] ⟨"1+".toList, .fin ⟨7, 1⟩, .fin ⟨2, 1⟩, "USD"⟩
      (by decide) (by decide)).2.1⟩

/-- C8 counterexample: the claim says non-finite values format as
`"0"`, but `format_number` of positive infinity returns `"inf"`
(`"%.8f"` renders `inf` as `"inf"`, `int("inf")` fails and the string
is kept verbatim). -/
theorem c8_counterexample :
    format_number (.val .inf) = "inf" ∧ format_number (.val .inf) ≠ "0" := by
  decide

/-- C8 (amended): `format_number` is total; input it cannot coerce to a
float yields `"0"`, while the non-finite floats format as `"inf"`,
`"-inf"` and `"nan"` (not `"0"`); finite values are trimmed to at most
8 fractional digits, trailing zeros and a trailing dot are stripped,
and the integer part is grouped with thousands separators —
`1234567.890000001` formats as `"1,234,567.89"` and `0` as `"0"`; in
general the output of the finite case splits into an integer part and
an optional fraction of at most 8 digits. -/
theorem c8_format_number :
    format_number .notCoercible = "0" ∧
    format_number (.val .inf) = "inf" ∧
    format_number (.val .ninf) = "-inf" ∧
    format_number (.val .nan) = "nan" ∧
    format_number (.val (.fin ⟨1234567890000001, 1000000000⟩)) = "1,234,567.89" ∧
    format_number (.val (.fin ⟨0, 1⟩)) = "0" ∧
    (∀ q : PRat, ∃ ip fp : Chars, formatVal (.fin q) = ip ++ fp ∧
      (fp = [] ∨ ∃ fr, fp = '.' :: fr ∧ fr.length ≤ 8)) :=
  ⟨by decide, by decide, by decide, by decide, by decide, by decide, formatVal_fin_shape⟩

theorem recall_base_equiv (rates : RateTable) (st : CalcState) (r0 m : PRat)
    (hl : rlookup rates st.selected = some r0) (hr : 0 < r0.num)
    (hm : st.memory = .fin m) :
    ∃ st2, memory_recall rates st = some st2 ∧ pvEq (pMul st2.last (.fin r0)) (.fin m) := by
  have hget : ratesGet rates st.selected = r0 := by
    unfold ratesGet
    rw [hl]
    rfl
  have hdiv : pDiv (.fin m) (.fin r0) = some (.fin (qdiv m r0)) := by
    unfold pDiv
    dsimp only
    rw [if_neg (by omega : ¬(r0.num = 0))]
  unfold memory_recall
  rw [hget, hm, hdiv]
  dsimp only
  refine ⟨_, rfl, ?_⟩
  show qEq (qmul (qdiv m r0) r0) m
  unfold qEq qmul qdiv
  rw [if_neg (by omega : ¬(r0.num < 0))]
  dsimp only
  ring

/-- C6: the memory accumulator is denominated in base-currency (TWD)
units independently of the selected currency: after a `memory_add`,
switching the selection to another code in the table never changes the
stored memory, and recalling after the switch yields an amount whose
base-currency equivalent (amount times the now-selected rate) is the
same stored value `m` that recalling without the switch yields (amount
times the previous rate). -/
theorem c6_memory_base_invariant :
    ∀ (rates : RateTable) (st0 : CalcState) (codeB : String) (ra rb m : PRat),
      rlookup rates (memory_add rates st0).selected = some ra →
      rlookup rates codeB = some rb →
      0 < ra.num → 0 < rb.num →
      (memory_add rates st0).memory = .fin m →
      (∀ st', handle_currency_switch codeB (memory_add rates st0).selected rates
          (memory_add rates st0) = some st' →
        st'.memory = (memory_add rates st0).memory ∧
        ∃ st2, memory_recall rates st' = some st2 ∧
          pvEq (pMul st2.last (.fin rb)) (.fin m)) ∧
      (∃ st1, memory_recall rates (memory_add rates st0) = some st1 ∧
        pvEq (pMul st1.last (.fin ra)) (.fin m)) := by
  intro rates st0 codeB ra rb m hA hB hra hrb hm
  constructor
  · intro st' hsw
    obtain ⟨hsel, hmem⟩ := handle_switch_cases _ _ _ _ _ hsw
    refine ⟨hmem, ?_⟩
    apply recall_base_equiv
    · rw [hsel]
      exact hB
    · exact hrb
    · rw [hmem]
      exact hm
  · exact recall_base_equiv rates _ ra m hA hra hm

/-- C6 witness. -/
theorem c6_memory_base_invariant_witness :
    rlookup [("USD", ⟨2, 1⟩), ("TWD", ⟨1, 1⟩)]
        (memory_add [("USD", ⟨2, 1⟩), ("TWD", ⟨1, 1⟩)]
          ⟨"5".toList, .fin ⟨0, 1⟩, .fin ⟨0, 1⟩, "USD"⟩).selected = some ⟨2, 1⟩ ∧
    (∃ st1, memory_recall [("USD", ⟨2, 1⟩), ("TWD", ⟨1, 1⟩)]
        (memory_add [("USD", ⟨2, 1⟩), ("TWD", ⟨1, 1⟩)]
          ⟨"5".toList, .fin ⟨0, 1⟩, .fin ⟨0, 1⟩, "USD"⟩) = some st1 ∧
      pvEq (pMul st1.last (.fin ⟨2, 1⟩)) (.fin ⟨10, 1⟩)) :=
  ⟨by decide,
    (c6_memory_base_invariant [("USD", ⟨2, 1⟩), ("TWD", ⟨1, 1⟩)]
      ⟨"5".toList, .fin ⟨0, 1⟩, .fin ⟨0, 1⟩, "USD"⟩ "TWD" ⟨2, 1⟩ ⟨1, 1⟩ ⟨10, 1⟩
      (by decide) (by decide) (by decide) (by decide) (by decide)).2⟩
